import Mathlib

/-
Verification of the structural IR substrate (basic blocks, block arguments,
the in-block operation iterator, and the def-use graph) of the pliron
repository, against its natural-language specification.

Shallow embedding conventions:
  * `Ptr<T>` handles are modelled as `Nat` (an arena index).
  * `Ptr<TypeObj>`, `Ptr<Operation>`, `Ptr<Region>` are likewise `Nat`.
  * Fallible or faulting code (`expect`, `todo!()`) returns `Except Unit`.
  * `Operation` is external to the sources (only `operation.rs` callers are
    visible); the parts of it the block code touches (its `block_links`
    prev/next pointers and its `verify` result) are fields of the context.
-/

namespace Pliron

/-- Derived identity of an SSA value, the enum `Value` of `use_def_lists.rs`.
The `BlockArgument` variant and its fields `block`, `arg_idx` are taken from
the `From<&BlockArgument> for Value` impl in `basic_block.rs` (lines 58-65).
Modelled from the spec: the `OpResult` variant (an operation result's derived
identity) since `use_def_lists.rs` is not among the sources. -/
inductive Value where
  | OpResult (op : Nat) (res_idx : Nat)
  | BlockArgument (block : Nat) (arg_idx : Nat)
deriving DecidableEq

/-- Back-reference from a value's use-list to the consuming operand slot
(an operation's operand). Modelled from the spec (section 3, `UseRef`):
`use_def_lists.rs` is not among the sources. -/
structure UseRef where
  op : Nat
  opd_idx : Nat
deriving DecidableEq

/-- Token returned by `add_use`; the operand slot stores the defining value's
derived identity plus this token. Modelled from the spec (sections 3 and 4.4):
`use_def_lists.rs` is not among the sources. -/
structure Use where
  vdef : Value
  use_idx : Nat
deriving DecidableEq

/-- Operand slot of a consuming operation: stores the `Use` holding the
defining value's derived identity. Modelled from the spec (section 3):
`operation.rs` is not among the sources. -/
structure Operand where
  opd_use : Use
deriving DecidableEq

/-- Modelled from the spec (section 4.4): `replace_def(new_use)` rewrites the
operand slot to point at the new definition with the new token. -/
def Operand.replace_def (_o : Operand) (new_use : Use) : Operand :=
  { opd_use := new_use }

/-- State acted on by `Value::replace_all_uses_with` (`value.rs` lines 26-32):
the use-list and identity of `self`, the use-list and identity of `new_val`,
and the operand slots reachable through the context (one per `UseRef`,
located by `UseRef::get_operand_mut`). -/
structure RAUWState where
  self_id : Value
  new_id : Value
  self_uses : List UseRef
  new_uses : List UseRef
  operands : UseRef → Operand

/-- Modelled from the spec (section 4.4): `add_use(use_ref)` appends `use_ref`
to the value's use-list and returns a new `Use` token for the caller's
operand. The token embeds the value's derived identity and the position at
which the use was registered. -/
def Value.add_use (uses : List UseRef) (vid : Value) (r : UseRef) : Use × List UseRef :=
  ({ vdef := vid, use_idx := uses.length }, uses ++ [r])

/-- One iteration of the loop body of `Value::replace_all_uses_with`:
`let new_use = new_val.add_use(*use); use.get_operand_mut(ctx).replace_def(new_use);`.
The entry `r` of self's use-list is not removed (the source loop only reads it). -/
def rauwStep (s : RAUWState) (r : UseRef) : RAUWState :=
  let res := Value.add_use s.new_uses s.new_id r
  { s with
    new_uses := res.2,
    operands := fun q => if q = r then Operand.replace_def (s.operands q) res.1 else s.operands q }

/-- Embedding of `Value::replace_all_uses_with` (`value.rs` lines 26-32):
iterate over self's current use-list, registering each entry on `new_val`
and rewriting the corresponding operand slot. The source never clears
self's use-list vector. -/
def Value.replace_all_uses_with (s : RAUWState) : RAUWState :=
  s.self_uses.foldl rauwStep s

/-- Argument to a `BasicBlock` (`basic_block.rs` lines 20-29). The field
`def_uses` is the use-list of the `def: DefNode<Value>` field. -/
structure BlockArgument where
  def_uses : List UseRef
  def_block : Nat
  arg_idx : Nat
  ty : Nat
deriving DecidableEq

/-- Conversion `From<&BlockArgument> for Value` (`basic_block.rs` lines 58-65). -/
def BlockArgument.toValue (arg : BlockArgument) : Value :=
  Value.BlockArgument arg.def_block arg.arg_idx

/-- Head and tail handles of the operations contained in a block
(`basic_block.rs` lines 81-93). -/
structure OpsInBlock where
  first : Option Nat
  last : Option Nat
deriving DecidableEq

/-- Constructor `OpsInBlock::new_empty`. -/
def OpsInBlock.new_empty : OpsInBlock :=
  { first := none, last := none }

/-- Links of a block to its parent region and neighbouring blocks
(`basic_block.rs` lines 142-159). -/
structure RegionLinks where
  parent_region : Option Nat
  next_block : Option Nat
  prev_block : Option Nat
deriving DecidableEq

/-- Constructor `RegionLinks::new_unlinked`. -/
def RegionLinks.new_unlinked : RegionLinks :=
  { parent_region := none, next_block := none, prev_block := none }

/-- The `BasicBlock` node (`basic_block.rs` lines 162-173). The predecessor
def-node `preds` is modelled by its use-list; the attribute dictionary is
modelled as an association list with opaque (`Nat`) attribute payloads. -/
structure BasicBlock where
  self_ptr : Nat
  label : Option String
  ops_list : OpsInBlock
  args : List BlockArgument
  preds : List UseRef
  region_links : RegionLinks
  attributes : List (String × Nat)
deriving DecidableEq

/-- The prev/next block-linkage fields of an `Operation` (its `block_links`),
the only part of the external `Operation` node the block iterator reads. -/
structure OpNode where
  prev_op : Option Nat
  next_op : Option Nat
deriving DecidableEq

/-- The allocation context, restricted to what the verified code touches:
the arena of basic blocks, and the two facets of the external `Operation`
arena that `basic_block.rs` dereferences (block linkage of each operation,
and the result of the external `Operation::verify`). -/
structure Context where
  basic_blocks : List BasicBlock
  op_block_links : Nat → OpNode
  op_verify : Nat → Except Nat Unit

/-- Iterator over the operations of a block (`basic_block.rs` lines 97-101):
a forward cursor and a backward cursor. The context reference held by the
Rust struct is passed explicitly to each step function instead. -/
structure Iter where
  next : Option Nat
  next_back : Option Nat
deriving DecidableEq

/-- Embedding of `Iterator::next` for `Iter` (`basic_block.rs` lines 106-120).
A `None` forward cursor yields nothing; a `Some` forward cursor with a `None`
backward cursor hits the `expect` fault (modelled as `Except.error`); when the
current element equals the backward cursor both cursors are cleared in the
same step, otherwise the forward cursor advances along `next_op`. -/
def Iter.step (ctx : Context) (it : Iter) : Except Unit (Option Nat × Iter) :=
  match it.next with
  | none => Except.ok (none, it)
  | some curr =>
    match it.next_back with
    | none => Except.error ()
    | some nb =>
      if curr = nb then
        Except.ok (some curr, { next := none, next_back := none })
      else
        Except.ok (some curr, { next := (ctx.op_block_links curr).next_op, next_back := it.next_back })

/-- Embedding of `DoubleEndedIterator::next_back` for `Iter`
(`basic_block.rs` lines 128-138), symmetric to `Iter.step`. -/
def Iter.stepBack (ctx : Context) (it : Iter) : Except Unit (Option Nat × Iter) :=
  match it.next_back with
  | none => Except.ok (none, it)
  | some curr =>
    match it.next with
    | none => Except.error ()
    | some nf =>
      if curr = nf then
        Except.ok (some curr, { next := none, next_back := none })
      else
        Except.ok (some curr, { next := it.next, next_back := (ctx.op_block_links curr).prev_op })

/-- Embedding of the overridden `Iterator::last` (`basic_block.rs` lines
122-124): a single `next_back` call, returning the yielded element. -/
def Iter.last (ctx : Context) (it : Iter) : Except Unit (Option Nat) :=
  match Iter.stepBack ctx it with
  | Except.error e => Except.error e
  | Except.ok (y, _) => Except.ok y

/-- Default `Iterator::last` from the Rust standard library, written for the
refinement comparison with the overridden `Iter.last`: exhaust the iterator
with `next` and return the final yielded element (`fold(None, fun acc x => some x)`).
The fuel bounds the number of `next` calls; running out of fuel with the
iterator still productive is reported as an error. -/
def Iter.lastDefaultAux (ctx : Context) : Nat → Iter → Option Nat → Except Unit (Option Nat)
  | 0, it, acc =>
    match it.next with
    | none => Except.ok acc
    | some _ => Except.error ()
  | fuel + 1, it, acc =>
    match Iter.step ctx it with
    | Except.error e => Except.error e
    | Except.ok (none, _) => Except.ok acc
    | Except.ok (some y, it2) => Iter.lastDefaultAux ctx fuel it2 (some y)

/-- Entry point of the default `Iterator::last`, starting the fold with `none`. -/
def Iter.lastDefault (ctx : Context) (fuel : Nat) (it : Iter) : Except Unit (Option Nat) :=
  Iter.lastDefaultAux ctx fuel it none

/-- Run of a fresh-or-stepped iterator under an interleaving of cursor calls:
`true` is a `next` call and `false` a `next_back` call. Returns the values
yielded by each call, in order, and the final iterator state; an iterator
fault aborts the run. -/
def runCalls (ctx : Context) : Iter → List Bool → Except Unit (List (Option Nat) × Iter)
  | it, [] => Except.ok ([], it)
  | it, c :: cs =>
    match (if c then Iter.step ctx it else Iter.stepBack ctx it) with
    | Except.error e => Except.error e
    | Except.ok (y, it2) =>
      match runCalls ctx it2 cs with
      | Except.error e => Except.error e
      | Except.ok (ys, itF) => Except.ok (y :: ys, itF)

/-- Embedding of `BasicBlock::iter` (`basic_block.rs` lines 186-192): a fresh
iterator whose cursors are the head and tail of the block's op-list. -/
def BasicBlock.iter (blk : BasicBlock) : Iter :=
  { next := blk.ops_list.first, next_back := blk.ops_list.last }

/-- Collection of the iterator into a vector, the
`ptr.deref_mut(ctx).iter(ctx).collect()` step of
`BasicBlock::dealloc_sub_objects` (`basic_block.rs` line 307). -/
def collectAux (ctx : Context) : Nat → Iter → Except Unit (List Nat)
  | 0, it =>
    match it.next with
    | none => Except.ok []
    | some _ => Except.error ()
  | fuel + 1, it =>
    match Iter.step ctx it with
    | Except.error e => Except.error e
    | Except.ok (none, _) => Except.ok []
    | Except.ok (some op, it2) =>
      match collectAux ctx fuel it2 with
      | Except.error e => Except.error e
      | Except.ok ops => Except.ok (op :: ops)

/-- Observable events of a block teardown: one deallocation call per contained
operation, and the freeing of the block's own arena slot. -/
inductive DeallocEvent where
  | deallocOp (op : Nat)
  | freeBlockSlot (blk : Nat)
deriving DecidableEq

/-- Embedding of `BasicBlock::dealloc_sub_objects` (`basic_block.rs` lines
306-311): collect the block's operations through its iterator, then
deallocate each in that order. The external `ArenaObj::dealloc(op, ctx)`
call on an operation is recorded as one `deallocOp` event. -/
def BasicBlock.dealloc_sub_objects (ctx : Context) (blk : BasicBlock) (fuel : Nat) :
    Except Unit (List DeallocEvent) :=
  match collectAux ctx fuel (BasicBlock.iter blk) with
  | Except.error e => Except.error e
  | Except.ok ops => Except.ok (ops.map DeallocEvent.deallocOp)

/-- Deallocation of a block as the claim describes it: `dealloc_sub_objects`
followed by freeing the block's own slot. Modelled from the spec (section
4.1): the arena-level `dealloc` driver lives in `context.rs`, which is not
among the sources. -/
def deallocBlock (ctx : Context) (blk : BasicBlock) (fuel : Nat) :
    Except Unit (List DeallocEvent) :=
  match BasicBlock.dealloc_sub_objects ctx blk fuel with
  | Except.error e => Except.error e
  | Except.ok evs => Except.ok (evs ++ [DeallocEvent.freeBlockSlot blk.self_ptr])

/-- Embedding of `BasicBlock::remove_references` (`basic_block.rs` lines
312-314): the body is `todo!()`, an unconditional fault. -/
def BasicBlock.remove_references (_ptr : Nat) (_ctx : Context) : Except Unit Unit :=
  Except.error ()

/-- Embedding of `Verify for BasicBlock` (`basic_block.rs` lines 321-325):
`self.iter(ctx).try_for_each(fun op => op.deref(ctx).verify(ctx))`. Returns,
besides the verification result, the list of operations whose `verify` was
actually invoked, in invocation order. -/
def verifyAux (ctx : Context) : Nat → Iter → Except Unit (List Nat × Except Nat Unit)
  | 0, it =>
    match it.next with
    | none => Except.ok ([], Except.ok ())
    | some _ => Except.error ()
  | fuel + 1, it =>
    match Iter.step ctx it with
    | Except.error e => Except.error e
    | Except.ok (none, _) => Except.ok ([], Except.ok ())
    | Except.ok (some op, it2) =>
      match ctx.op_verify op with
      | Except.error err => Except.ok ([op], Except.error err)
      | Except.ok () =>
        match verifyAux ctx fuel it2 with
        | Except.error e => Except.error e
        | Except.ok (visited, res) => Except.ok (op :: visited, res)

/-- Entry point of `BasicBlock::verify`, walking the block's own iterator. -/
def BasicBlock.verify (ctx : Context) (blk : BasicBlock) (fuel : Nat) :
    Except Unit (List Nat × Except Nat Unit) :=
  verifyAux ctx fuel (BasicBlock.iter blk)

/-- Embedding of `BasicBlock::get_argument` (`basic_block.rs` lines 227-229):
`self.args.get(arg_idx).map(fun arg => arg.into())`; the checked `Vec::get`
lookup is `List.getElem?`, total for every index. -/
def BasicBlock.get_argument (blk : BasicBlock) (arg_idx : Nat) : Option Value :=
  blk.args[arg_idx]?.map BlockArgument.toValue

/-- Embedding of `BasicBlock::get_num_arguments` (`basic_block.rs` lines 242-244). -/
def BasicBlock.get_num_arguments (blk : BasicBlock) : Nat :=
  blk.args.length

/-- Modelled from the spec (section 4.1): `ArenaObj::alloc(ctx, constructor)`
of `context.rs` (not among the sources) reserves the next slot, computes its
handle, invokes the constructor with that handle and stores the node. -/
def BasicBlock.alloc (ctx : Context) (f : Nat → BasicBlock) : Context × Nat :=
  let self_ptr := ctx.basic_blocks.length
  ({ ctx with basic_blocks := ctx.basic_blocks ++ [f self_ptr] }, self_ptr)

/-- Embedding of `BasicBlock::new` (`basic_block.rs` lines 195-224): allocate
the block with no arguments, then build each `BlockArgument` from the now
known self handle (empty use-list, owning block, positional index, type) and
install the vector through `deref_mut`. -/
def BasicBlock.new (ctx : Context) (label : Option String) (arg_types : List Nat) :
    Context × Nat :=
  let f : Nat → BasicBlock := fun self_ptr =>
    { self_ptr := self_ptr, label := label, args := [],
      ops_list := OpsInBlock.new_empty, preds := [],
      region_links := RegionLinks.new_unlinked, attributes := [] }
  let res := BasicBlock.alloc ctx f
  let args : List BlockArgument := arg_types.enum.map fun p =>
    { def_uses := [], def_block := res.2, arg_idx := p.1, ty := p.2 }
  match res.1.basic_blocks[res.2]? with
  | some b =>
    ({ res.1 with basic_blocks := res.1.basic_blocks.set res.2 { b with args := args } }, res.2)
  | none => (res.1, res.2)

/-- Successor of an element along the chain `L`: the `next_op` link a
well-linked intrusive list assigns to it (spec section 3). -/
def nextIn : List Nat → Nat → Option Nat
  | [], _ => none
  | [_], _ => none
  | a :: b :: rest, p => if p = a then some b else nextIn (b :: rest) p

/-- Predecessor along the chain `L`, symmetric to `nextIn`. -/
def prevIn : List Nat → Nat → Option Nat
  | [], _ => none
  | [_], _ => none
  | a :: b :: rest, p => if p = b then some a else prevIn (b :: rest) p

/-- The context links every operation of `L` into the chain `L`. -/
@[reducible]
def EncodesOps (ctx : Context) (L : List Nat) : Prop :=
  ∀ p ∈ L, ctx.op_block_links p = { prev_op := prevIn L p, next_op := nextIn L p }

/-- The block's op-list holds the head and tail of the chain `L`. -/
@[reducible]
def BlockEncodes (blk : BasicBlock) (L : List Nat) : Prop :=
  blk.ops_list.first = L.head? ∧ blk.ops_list.last = L.getLast?

/-- Abstraction relation for the iterator: the state `it` denotes the
remaining contiguous segment `seg` of the block's full operation chain `L`:
the forward cursor sits on the segment's first element and the backward
cursor on its last (both `none` for the exhausted iterator). -/
def Abs (L : List Nat) (it : Iter) (seg : List Nat) : Prop :=
  (∃ pre post, L = pre ++ seg ++ post) ∧ it.next = seg.head? ∧ it.next_back = seg.getLast?

/-- Paired-cursor invariant: the two cursors are `some`/`some` or `none`/`none`
in lockstep. -/
def Paired (it : Iter) : Prop :=
  (it.next = none ∧ it.next_back = none) ∨ (it.next.isSome ∧ it.next_back.isSome)

/-- Concrete operation chain used by the witnesses. -/
def exList : List Nat := [10, 11, 12]

/-- Concrete context used by the witnesses: links `exList` and fails
verification exactly at operation 11. -/
def exCtx : Context :=
  { basic_blocks := [],
    op_block_links := fun p => { prev_op := prevIn exList p, next_op := nextIn exList p },
    op_verify := fun p => if p = 11 then Except.error 7 else Except.ok () }

/-- Concrete block used by the witnesses, containing the chain `exList`. -/
def exBlk : BasicBlock :=
  { self_ptr := 4, label := none,
    ops_list := { first := some 10, last := some 12 },
    args := [], preds := [], region_links := RegionLinks.new_unlinked, attributes := [] }

/-- Concrete replace-all-uses-with state: `self` is block 0's argument 0 with
one registered use, the target is block 1's argument 0 with none. -/
def rauwEx : RAUWState :=
  { self_id := Value.BlockArgument 0 0,
    new_id := Value.BlockArgument 1 0,
    self_uses := [{ op := 5, opd_idx := 0 }],
    new_uses := [],
    operands := fun _ => { opd_use := { vdef := Value.BlockArgument 0 0, use_idx := 0 } } }

/-- Concrete replace-all-uses-with state with two uses, for the C3 witness. -/
def rauwEx2 : RAUWState :=
  { self_id := Value.BlockArgument 0 0,
    new_id := Value.BlockArgument 1 0,
    self_uses := [{ op := 5, opd_idx := 0 }, { op := 6, opd_idx := 1 }],
    new_uses := [],
    operands := fun _ => { opd_use := { vdef := Value.BlockArgument 0 0, use_idx := 0 } } }

/-- Concrete block-argument example block with two arguments, for witnesses. -/
def exArgBlk : BasicBlock :=
  { self_ptr := 0, label := none,
    ops_list := OpsInBlock.new_empty,
    args := [{ def_uses := [], def_block := 0, arg_idx := 0, ty := 7 },
             { def_uses := [], def_block := 0, arg_idx := 1, ty := 8 }],
    preds := [], region_links := RegionLinks.new_unlinked, attributes := [] }

theorem set_concat_length {α : Type} (l : List α) (a b : α) :
    (l ++ [a]).set l.length b = l ++ [b] := by
  induction l with
  | nil => rfl
  | cons x xs ih => simp [List.set, ih]

theorem foldl_rauwStep_self_uses (l : List UseRef) (s : RAUWState) :
    (l.foldl rauwStep s).self_uses = s.self_uses := by
  induction l generalizing s with
  | nil => rfl
  | cons a t ih =>
    rw [List.foldl_cons, ih]
    rfl

theorem foldl_rauwStep_new_uses (l : List UseRef) (s : RAUWState) :
    (l.foldl rauwStep s).new_uses = s.new_uses ++ l := by
  induction l generalizing s with
  | nil => simp
  | cons a t ih =>
    rw [List.foldl_cons, ih]
    simp [rauwStep, Value.add_use]

theorem foldl_rauwStep_operands_not_mem (l : List UseRef) (s : RAUWState) (r : UseRef)
    (h : r ∉ l) : (l.foldl rauwStep s).operands r = s.operands r := by
  induction l generalizing s with
  | nil => rfl
  | cons a t ih =>
    have hra : r ≠ a := fun heq => h (heq ▸ List.mem_cons_self a t)
    rw [List.foldl_cons, ih _ (fun hm => h (List.mem_cons_of_mem a hm))]
    simp [rauwStep, hra]

theorem foldl_rauwStep_operands_mem (l : List UseRef) (s : RAUWState) (r : UseRef)
    (h : r ∈ l) : ((l.foldl rauwStep s).operands r).opd_use.vdef = s.new_id := by
  induction l generalizing s with
  | nil => cases h
  | cons a t ih =>
    rw [List.foldl_cons]
    by_cases hrt : r ∈ t
    · rw [ih _ hrt]
      rfl
    · have hra : r = a := by
        rcases List.mem_cons.mp h with h1 | h2
        · exact h1
        · exact absurd h2 hrt
      rw [foldl_rauwStep_operands_not_mem t _ r hrt]
      subst hra
      simp [rauwStep, Operand.replace_def, Value.add_use]

/-- Claim C4: `BasicBlock::remove_references` is the unimplemented stub
`todo!()`: for every block handle and context it faults instead of
returning normally, so block deallocation never severs incoming
predecessor or use references through this hook. -/
theorem remove_references_always_faults (ptr : Nat) (ctx : Context) :
    BasicBlock.remove_references ptr ctx = Except.error () := rfl

/-- Claim C8: `BasicBlock::get_argument(idx)` returns the idx'th argument's
derived value identity when `idx` is in range and `none` when it is out of
range; the lookup is checked (`Vec::get`, embedded as `List.getElem?`), so
it is total and never faults. -/
theorem get_argument_checked (blk : BasicBlock) (idx : Nat) :
    (idx < blk.args.length →
      ∃ arg, blk.args[idx]? = some arg ∧
        BasicBlock.get_argument blk idx = some (Value.BlockArgument arg.def_block arg.arg_idx)) ∧
    (blk.args.length ≤ idx → BasicBlock.get_argument blk idx = none) := by
  constructor
  · intro h
    refine ⟨blk.args[idx], List.getElem?_eq_getElem h, ?_⟩
    unfold BasicBlock.get_argument
    rw [List.getElem?_eq_getElem h]
    rfl
  · intro h
    unfold BasicBlock.get_argument
    rw [List.getElem?_eq_none h]
    rfl

/-- Witness for claim C8 at the concrete two-argument block, at an
in-range and an out-of-range index. -/
theorem get_argument_checked_witness :
    (0 < exArgBlk.args.length ∧
      ∃ arg, exArgBlk.args[0]? = some arg ∧
        BasicBlock.get_argument exArgBlk 0 = some (Value.BlockArgument arg.def_block arg.arg_idx)) ∧
    (exArgBlk.args.length ≤ 5 ∧ BasicBlock.get_argument exArgBlk 5 = none) :=
  ⟨⟨by decide, (get_argument_checked exArgBlk 0).1 (by decide)⟩,
   ⟨by decide, (get_argument_checked exArgBlk 5).2 (by decide)⟩⟩

/-- Claim C1 is refuted by the code: `Value::replace_all_uses_with` iterates
over self's use-list (registering each entry on the target and rewriting the
operand slots) but never removes the entries, so on a value with one
registered use the use-list still has length 1 afterwards, not 0 — contrary
to the claim and to the function's own doc comment (`value.rs` line 25). -/
theorem rauw_does_not_drain_self :
    (Value.replace_all_uses_with rauwEx).self_uses.length = 1 ∧
    (Value.replace_all_uses_with rauwEx).self_uses = rauwEx.self_uses := by
  constructor <;> rfl

/-- Claim C3: after `replace_all_uses_with`, the target's use-list has gained
exactly the m original entries, appended in original order; every operand
slot registered in self's use-list now resolves by def-identity to the
target; and at every intermediate point of the loop each such operand
resolves either to the old definition or to the new one, never to a
dangling intermediate state. -/
theorem rauw_target_gains (s : RAUWState)
    (hpt : ∀ r ∈ s.self_uses, ((s.operands r).opd_use).vdef = s.self_id) :
    (Value.replace_all_uses_with s).new_uses = s.new_uses ++ s.self_uses ∧
    (Value.replace_all_uses_with s).new_uses.length = s.new_uses.length + s.self_uses.length ∧
    (∀ r ∈ s.self_uses,
      (((Value.replace_all_uses_with s).operands r).opd_use).vdef = s.new_id) ∧
    (∀ i : Nat, ∀ r ∈ s.self_uses,
      ((((s.self_uses.take i).foldl rauwStep s).operands r).opd_use).vdef = s.self_id ∨
      ((((s.self_uses.take i).foldl rauwStep s).operands r).opd_use).vdef = s.new_id) := by
  refine ⟨foldl_rauwStep_new_uses _ _, ?_, ?_, ?_⟩
  · rw [show (Value.replace_all_uses_with s).new_uses = s.new_uses ++ s.self_uses from
      foldl_rauwStep_new_uses _ _]
    simp
  · intro r hr
    exact foldl_rauwStep_operands_mem _ _ _ hr
  · intro i r hr
    by_cases hm : r ∈ s.self_uses.take i
    · right
      exact foldl_rauwStep_operands_mem _ _ _ hm
    · left
      rw [foldl_rauwStep_operands_not_mem _ _ _ hm]
      exact hpt r hr

/-- Witness for claim C3 at the concrete two-use state. -/
theorem rauw_target_gains_witness :
    (∀ r ∈ rauwEx2.self_uses, ((rauwEx2.operands r).opd_use).vdef = rauwEx2.self_id) ∧
    ((Value.replace_all_uses_with rauwEx2).new_uses = rauwEx2.new_uses ++ rauwEx2.self_uses ∧
     (Value.replace_all_uses_with rauwEx2).new_uses.length =
       rauwEx2.new_uses.length + rauwEx2.self_uses.length ∧
     (∀ r ∈ rauwEx2.self_uses,
       (((Value.replace_all_uses_with rauwEx2).operands r).opd_use).vdef = rauwEx2.new_id) ∧
     (∀ i : Nat, ∀ r ∈ rauwEx2.self_uses,
       ((((rauwEx2.self_uses.take i).foldl rauwStep rauwEx2).operands r).opd_use).vdef =
         rauwEx2.self_id ∨
       ((((rauwEx2.self_uses.take i).foldl rauwStep rauwEx2).operands r).opd_use).vdef =
         rauwEx2.new_id)) :=
  ⟨by decide, rauw_target_gains rauwEx2 (by decide)⟩

theorem new_block_spec (ctx : Context) (label : Option String) (tys : List Nat) :
    (BasicBlock.new ctx label tys).2 = ctx.basic_blocks.length ∧
    (BasicBlock.new ctx label tys).1.basic_blocks =
      ctx.basic_blocks ++
        [{ self_ptr := ctx.basic_blocks.length, label := label,
           args := tys.enum.map fun p =>
             { def_uses := [], def_block := ctx.basic_blocks.length, arg_idx := p.1, ty := p.2 },
           ops_list := OpsInBlock.new_empty, preds := [],
           region_links := RegionLinks.new_unlinked, attributes := [] }] := by
  unfold BasicBlock.new BasicBlock.alloc
  simp only [List.getElem?_concat_length, set_concat_length]
  exact ⟨trivial, trivial⟩

/-- Claim C7: a block created by `BasicBlock::new` with k argument types has
`get_num_arguments() == k`, and its i'th argument (for i < k) is built with
an empty use-list, the new block's own handle as `def_block`, index i, and
the i'th requested type; its derived `Value` identity is
`Value::BlockArgument { block := the new handle, arg_idx := i }`. -/
theorem new_block_arguments (ctx : Context) (label : Option String) (tys : List Nat)
    (i : Nat) (hi : i < tys.length) :
    ∃ blk arg,
      (BasicBlock.new ctx label tys).1.basic_blocks[(BasicBlock.new ctx label tys).2]? =
        some blk ∧
      blk.self_ptr = (BasicBlock.new ctx label tys).2 ∧
      BasicBlock.get_num_arguments blk = tys.length ∧
      blk.args[i]? = some arg ∧
      arg.def_block = (BasicBlock.new ctx label tys).2 ∧
      arg.arg_idx = i ∧
      arg.def_uses = [] ∧
      tys[i]? = some arg.ty ∧
      BasicBlock.get_argument blk i =
        some (Value.BlockArgument (BasicBlock.new ctx label tys).2 i) := by
  obtain ⟨hp, hb⟩ := new_block_spec ctx label tys
  refine ⟨{ self_ptr := ctx.basic_blocks.length, label := label,
            args := tys.enum.map fun p =>
              { def_uses := [], def_block := ctx.basic_blocks.length, arg_idx := p.1, ty := p.2 },
            ops_list := OpsInBlock.new_empty, preds := [],
            region_links := RegionLinks.new_unlinked, attributes := [] },
          { def_uses := [], def_block := ctx.basic_blocks.length, arg_idx := i, ty := tys[i] },
          ?_, ?_, ?_, ?_, ?_, ?_, ?_, ?_, ?_⟩
  · rw [hp, hb]
    exact List.getElem?_concat_length _ _
  · rw [hp]
  · simp [BasicBlock.get_num_arguments, List.enum_length]
  · simp [List.getElem?_map, List.getElem?_enum, List.getElem?_eq_getElem hi]
  · rw [hp]
  · rfl
  · rfl
  · exact List.getElem?_eq_getElem hi
  · rw [hp]
    simp [BasicBlock.get_argument, BlockArgument.toValue, List.getElem?_map,
      List.getElem?_enum, List.getElem?_eq_getElem hi]

/-- Witness for claim C7: a block with two argument types, at index 1. -/
theorem new_block_arguments_witness :
    1 < 2 ∧
    ∃ blk arg,
      (BasicBlock.new exCtx none [7, 8]).1.basic_blocks[(BasicBlock.new exCtx none [7, 8]).2]? =
        some blk ∧
      blk.self_ptr = (BasicBlock.new exCtx none [7, 8]).2 ∧
      BasicBlock.get_num_arguments blk = 2 ∧
      blk.args[1]? = some arg ∧
      arg.def_block = (BasicBlock.new exCtx none [7, 8]).2 ∧
      arg.arg_idx = 1 ∧
      arg.def_uses = [] ∧
      [7, 8][1]? = some arg.ty ∧
      BasicBlock.get_argument blk 1 =
        some (Value.BlockArgument (BasicBlock.new exCtx none [7, 8]).2 1) :=
  ⟨by decide, new_block_arguments exCtx none [7, 8] 1 (by decide)⟩

theorem nextIn_eq (l₁ l₂ : List Nat) (a b : Nat)
    (hnd : (l₁ ++ a :: b :: l₂).Nodup) : nextIn (l₁ ++ a :: b :: l₂) a = some b := by
  induction l₁ with
  | nil => simp [nextIn]
  | cons x xs ih =>
    have hnd' : (x :: (xs ++ a :: b :: l₂)).Nodup := by simpa using hnd
    have hxt : x ∉ xs ++ a :: b :: l₂ := (List.nodup_cons.mp hnd').1
    have hax : a ≠ x := fun h => hxt (h ▸ (by simp : a ∈ xs ++ a :: b :: l₂))
    have htl : (xs ++ a :: b :: l₂).Nodup := (List.nodup_cons.mp hnd').2
    cases xs with
    | nil => simp [nextIn, hax]
    | cons y ys =>
      show nextIn (x :: y :: (ys ++ a :: b :: l₂)) a = some b
      rw [show nextIn (x :: y :: (ys ++ a :: b :: l₂)) a
            = if a = x then some y else nextIn (y :: (ys ++ a :: b :: l₂)) a from rfl,
        if_neg hax]
      exact ih htl

theorem prevIn_eq (l₁ l₂ : List Nat) (a b : Nat)
    (hnd : (l₁ ++ a :: b :: l₂).Nodup) : prevIn (l₁ ++ a :: b :: l₂) b = some a := by
  induction l₁ with
  | nil => simp [prevIn]
  | cons x xs ih =>
    have hnd' : (x :: (xs ++ a :: b :: l₂)).Nodup := by simpa using hnd
    have htl : (xs ++ a :: b :: l₂).Nodup := (List.nodup_cons.mp hnd').2
    cases xs with
    | nil =>
      have hab : (a :: b :: l₂).Nodup := htl
      have hba : b ≠ a := by
        intro h
        exact (List.nodup_cons.mp hab).1 (h ▸ (by simp : b ∈ b :: l₂))
      simp [prevIn, hba]
    | cons y ys =>
      have hyt : y ∉ ys ++ a :: b :: l₂ := (List.nodup_cons.mp htl).1
      have hby : b ≠ y := fun h => hyt (h ▸ (by simp : b ∈ ys ++ a :: b :: l₂))
      show prevIn (x :: y :: (ys ++ a :: b :: l₂)) b = some a
      rw [show prevIn (x :: y :: (ys ++ a :: b :: l₂)) b
            = if b = y then some x else prevIn (y :: (ys ++ a :: b :: l₂)) b from rfl,
        if_neg hby]
      exact ih htl

theorem nodup_middle {L pre seg post : List Nat} (h : L = pre ++ seg ++ post)
    (hnd : L.Nodup) : seg.Nodup := by
  subst h
  have h1 : List.Sublist seg (seg ++ post) := List.sublist_append_left seg post
  have h2 : List.Sublist (seg ++ post) (pre ++ (seg ++ post)) :=
    List.sublist_append_right pre (seg ++ post)
  exact List.Nodup.sublist (h1.trans h2) (by simpa [List.append_assoc] using hnd)

theorem step_abs {L : List Nat} {ctx : Context} (hnd : L.Nodup) (henc : EncodesOps ctx L)
    (a : Nat) (rest : List Nat) (it : Iter) (habs : Abs L it (a :: rest)) :
    ∃ it2, Iter.step ctx it = Except.ok (some a, it2) ∧ Abs L it2 rest := by
  obtain ⟨⟨pre, post, hL⟩, hn, hb⟩ := habs
  have hna : it.next = some a := by rw [hn]; rfl
  cases rest with
  | nil =>
    have hba : it.next_back = some a := by rw [hb]; rfl
    refine ⟨{ next := none, next_back := none }, ?_, ⟨pre ++ [a], post, by simp [hL]⟩, rfl, rfl⟩
    unfold Iter.step
    rw [hna, hba]
    simp
  | cons b rest2 =>
    obtain ⟨r1, z, hr⟩ : ∃ r1 z, b :: rest2 = r1 ++ [z] := by
      rcases List.eq_nil_or_concat (b :: rest2) with h | ⟨r1, z, h⟩
      · cases h
      · exact ⟨r1, z, by rw [h, List.concat_eq_append]⟩
    have hseg : (a :: b :: rest2).Nodup := nodup_middle hL hnd
    have hzr : z ∈ b :: rest2 := by rw [hr]; simp
    have haz : a ≠ z := by
      intro h
      exact (List.nodup_cons.mp hseg).1 (h ▸ hzr)
    have hbz : it.next_back = some z := by
      rw [hb, show a :: b :: rest2 = (a :: r1) ++ [z] from by rw [List.cons_append, ← hr],
        List.getLast?_concat]
    have ha_mem : a ∈ L := by rw [hL]; simp
    refine ⟨{ next := (ctx.op_block_links a).next_op, next_back := it.next_back }, ?_, ?_⟩
    · unfold Iter.step
      rw [hna, hbz]
      simp [haz]
    · refine ⟨⟨pre ++ [a], post, by simp [hL]⟩, ?_, ?_⟩
      · rw [henc a ha_mem]
        show nextIn L a = some b
        have hre : L = pre ++ a :: b :: (rest2 ++ post) := by rw [hL]; simp
        rw [hre]
        exact nextIn_eq pre (rest2 ++ post) a b (by rw [← hre]; exact hnd)
      · rw [hb, List.getLast?_cons_cons]

theorem stepBack_abs {L : List Nat} {ctx : Context} (hnd : L.Nodup) (henc : EncodesOps ctx L)
    (init : List Nat) (z : Nat) (it : Iter) (habs : Abs L it (init ++ [z])) :
    ∃ it2, Iter.stepBack ctx it = Except.ok (some z, it2) ∧ Abs L it2 init := by
  obtain ⟨⟨pre, post, hL⟩, hn, hb⟩ := habs
  have hbz : it.next_back = some z := by rw [hb]; exact List.getLast?_concat _
  cases init with
  | nil =>
    have hnz : it.next = some z := by rw [hn]; rfl
    refine ⟨{ next := none, next_back := none }, ?_, ⟨pre, z :: post, by simpa using hL⟩, rfl, rfl⟩
    unfold Iter.stepBack
    rw [hbz, hnz]
    simp
  | cons w init2 =>
    obtain ⟨init1, y, hinit⟩ : ∃ init1 y, w :: init2 = init1 ++ [y] := by
      rcases List.eq_nil_or_concat (w :: init2) with h | ⟨i1, y, h⟩
      · cases h
      · exact ⟨i1, y, by rw [h, List.concat_eq_append]⟩
    have hnw : it.next = some w := by rw [hn]; rfl
    have hseg : ((w :: init2) ++ [z]).Nodup := nodup_middle hL hnd
    have hzw : z ≠ w := by
      intro h
      have hz2 : z ∈ init2 ++ [z] := by simp
      have hw2 : w ∉ init2 ++ [z] := (List.nodup_cons.mp (by simpa using hseg)).1
      exact hw2 (h ▸ hz2)
    have hz_mem : z ∈ L := by rw [hL]; simp
    refine ⟨{ next := it.next, next_back := (ctx.op_block_links z).prev_op }, ?_, ?_⟩
    · unfold Iter.stepBack
      rw [hbz, hnw]
      simp [hzw]
    · refine ⟨⟨pre, z :: post, by rw [hL]; simp⟩, ?_, ?_⟩
      · rw [hn]; rfl
      · rw [henc z hz_mem]
        show prevIn L z = (w :: init2).getLast?
        rw [hinit, List.getLast?_concat]
        have hre : L = (pre ++ init1) ++ y :: z :: post := by rw [hL, hinit]; simp
        rw [hre]
        exact prevIn_eq (pre ++ init1) post y z (by rw [← hre]; exact hnd)

theorem iter_fresh_abs {L : List Nat} {blk : BasicBlock} (hblk : BlockEncodes blk L) :
    Abs L (BasicBlock.iter blk) L :=
  ⟨⟨[], [], by simp⟩, hblk.1, hblk.2⟩

theorem getLast?_isSome_of_ne_nil {l : List Nat} (h : l ≠ []) : l.getLast?.isSome = true := by
  rcases List.eq_nil_or_concat l with rfl | ⟨l1, z, hz⟩
  · cases h rfl
  · rw [hz, List.concat_eq_append, List.getLast?_concat]
    rfl

theorem runCalls_abs {L : List Nat} {ctx : Context} (hnd : L.Nodup) (henc : EncodesOps ctx L) :
    ∀ (calls : List Bool) (seg : List Nat) (it : Iter),
      Abs L it seg → calls.length ≤ seg.length →
      ∃ f mid b ys it2,
        runCalls ctx it calls = Except.ok (ys, it2) ∧
        seg = f ++ mid ++ b ∧ Abs L it2 mid ∧
        mid.length = seg.length - calls.length ∧
        ys.Perm ((f ++ b).map some) := by
  intro calls
  induction calls with
  | nil =>
    intro seg it habs _
    exact ⟨[], seg, [], [], it, rfl, by simp, habs, by simp, by simp⟩
  | cons c cs ih =>
    intro seg it habs hlen
    cases c
    · -- a next_back call
      rcases List.eq_nil_or_concat seg with rfl | ⟨init, z, hz⟩
      · simp at hlen
      · rw [List.concat_eq_append] at hz
        subst hz
        obtain ⟨it2, hstep, habs2⟩ := stepBack_abs hnd henc init z it habs
        obtain ⟨f, mid, b, ys, itF, hrun, hdec, habsF, hmidlen, hperm⟩ :=
          ih init it2 habs2 (by simp at hlen ⊢; omega)
        refine ⟨f, mid, b ++ [z], some z :: ys, itF, ?_, ?_, habsF, ?_, ?_⟩
        · simp [runCalls, hstep, hrun]
        · rw [hdec]
          simp
        · simp at hlen ⊢
          omega
        · have hgoal : (f ++ (b ++ [z])).map some = (f ++ b).map some ++ [some z] := by
            simp
          rw [hgoal]
          exact (hperm.cons (some z)).trans (List.perm_append_singleton _ _).symm
    · -- a next call
      cases seg with
      | nil => simp at hlen
      | cons a rest =>
        obtain ⟨it2, hstep, habs2⟩ := step_abs hnd henc a rest it habs
        obtain ⟨f, mid, b, ys, itF, hrun, hdec, habsF, hmidlen, hperm⟩ :=
          ih rest it2 habs2 (by simpa using hlen)
        refine ⟨a :: f, mid, b, some a :: ys, itF, ?_, ?_, habsF, ?_, ?_⟩
        · simp [runCalls, hstep, hrun]
        · rw [hdec]
          rfl
        · simp at hmidlen ⊢
          omega
        · exact hperm.cons (some a)

theorem runCalls_total {L : List Nat} {ctx : Context} (hnd : L.Nodup) (henc : EncodesOps ctx L) :
    ∀ (calls : List Bool) (seg : List Nat) (it : Iter), Abs L it seg →
      ∃ ys it2 seg2, runCalls ctx it calls = Except.ok (ys, it2) ∧ Abs L it2 seg2 := by
  intro calls
  induction calls with
  | nil =>
    intro seg it habs
    exact ⟨[], it, seg, rfl, habs⟩
  | cons c cs ih =>
    intro seg it habs
    cases c
    · rcases List.eq_nil_or_concat seg with rfl | ⟨init, z, hz⟩
      · obtain ⟨hdc, hn, hb⟩ := habs
        have hb0 : it.next_back = none := by rw [hb]; rfl
        have hstep : Iter.stepBack ctx it = Except.ok (none, it) := by
          unfold Iter.stepBack
          rw [hb0]
        obtain ⟨ys, it2, seg2, hrun, habsF⟩ := ih [] it ⟨hdc, hn, hb⟩
        exact ⟨none :: ys, it2, seg2, by simp [runCalls, hstep, hrun], habsF⟩
      · rw [List.concat_eq_append] at hz
        subst hz
        obtain ⟨it2, hstep, habs2⟩ := stepBack_abs hnd henc init z it habs
        obtain ⟨ys, itF, seg2, hrun, habsF⟩ := ih init it2 habs2
        exact ⟨some z :: ys, itF, seg2, by simp [runCalls, hstep, hrun], habsF⟩
    · cases seg with
      | nil =>
        obtain ⟨hdc, hn, hb⟩ := habs
        have hn0 : it.next = none := by rw [hn]; rfl
        have hstep : Iter.step ctx it = Except.ok (none, it) := by
          unfold Iter.step
          rw [hn0]
        obtain ⟨ys, it2, seg2, hrun, habsF⟩ := ih [] it ⟨hdc, hn, hb⟩
        exact ⟨none :: ys, it2, seg2, by simp [runCalls, hstep, hrun], habsF⟩
      | cons a rest =>
        obtain ⟨it2, hstep, habs2⟩ := step_abs hnd henc a rest it habs
        obtain ⟨ys, itF, seg2, hrun, habsF⟩ := ih rest it2 habs2
        exact ⟨some a :: ys, itF, seg2, by simp [runCalls, hstep, hrun], habsF⟩

/-- Claim C2: on a fresh iterator over a block whose op-list holds the chain
`L` of length n, any interleaving of n cursor calls (k forward `next` calls
and n-k backward `next_back` calls, in any order) runs without fault, yields
each of the n operations exactly once, and ends with both cursors `none`;
moreover after every proper prefix of the calls both cursors are still
`some`, so the two cursors are cleared together on the final call. -/
theorem iter_interleaving_visits_once {L : List Nat} {ctx : Context} {blk : BasicBlock}
    (hnd : L.Nodup) (henc : EncodesOps ctx L) (hblk : BlockEncodes blk L)
    (calls : List Bool) (hlen : calls.length = L.length) :
    (∃ ys, runCalls ctx (BasicBlock.iter blk) calls =
        Except.ok (ys, { next := none, next_back := none }) ∧
      ys.Perm (L.map some)) ∧
    ∀ i < calls.length,
      ∃ ys2 it2, runCalls ctx (BasicBlock.iter blk) (calls.take i) = Except.ok (ys2, it2) ∧
        it2.next.isSome = true ∧ it2.next_back.isSome = true := by
  constructor
  · obtain ⟨f, mid, b, ys, it2, hrun, hdec, habs2, hmidlen, hperm⟩ :=
      runCalls_abs hnd henc calls L (BasicBlock.iter blk) (iter_fresh_abs hblk)
        (le_of_eq hlen)
    have hmid : mid = [] := List.eq_nil_of_length_eq_zero (by omega)
    subst hmid
    obtain ⟨hdc, hn2, hb2⟩ := habs2
    have h1 : it2.next = none := by rw [hn2]; rfl
    have h2 : it2.next_back = none := by rw [hb2]; rfl
    have hit : it2 = { next := none, next_back := none } := by
      cases it2 with
      | mk n nb =>
        have h1' : n = none := h1
        have h2' : nb = none := h2
        rw [h1', h2']
    have hfb : f ++ b = L := by
      rw [hdec]
      simp
    refine ⟨ys, by rw [← hit]; exact hrun, ?_⟩
    rw [← hfb]
    exact hperm
  · intro i hi
    obtain ⟨f, mid, b, ys2, it2, hrun, hdec, habs2, hmidlen, hperm⟩ :=
      runCalls_abs hnd henc (calls.take i) L (BasicBlock.iter blk) (iter_fresh_abs hblk)
        (by rw [List.length_take]; omega)
    have hmidpos : mid ≠ [] := by
      intro hnil
      rw [hnil] at hmidlen
      simp [List.length_take] at hmidlen
      omega
    cases mid with
    | nil => exact absurd rfl hmidpos
    | cons m ms =>
      obtain ⟨_, hn2, hb2⟩ := habs2
      refine ⟨ys2, it2, hrun, by rw [hn2]; rfl, ?_⟩
      rw [hb2]
      exact getLast?_isSome_of_ne_nil (by simp)

/-- Witness for claim C2: the chain of three operations traversed by one
forward, one backward and one forward call. -/
theorem iter_interleaving_visits_once_witness :
    (exList.Nodup ∧ EncodesOps exCtx exList ∧ BlockEncodes exBlk exList ∧
      ([true, false, true] : List Bool).length = exList.length) ∧
    ((∃ ys, runCalls exCtx (BasicBlock.iter exBlk) [true, false, true] =
        Except.ok (ys, { next := none, next_back := none }) ∧
      ys.Perm (exList.map some)) ∧
    ∀ i < ([true, false, true] : List Bool).length,
      ∃ ys2 it2,
        runCalls exCtx (BasicBlock.iter exBlk) (([true, false, true] : List Bool).take i) =
          Except.ok (ys2, it2) ∧
        it2.next.isSome = true ∧ it2.next_back.isSome = true) :=
  ⟨⟨by decide, by decide, by decide, by decide⟩,
   iter_interleaving_visits_once (by decide) (by decide) (by decide)
     [true, false, true] (by decide)⟩

/-- Claim C9: starting from a fresh `BasicBlock::iter` on a well-linked block
(that is, from any state the iterator can actually produce), any sequence of
`next` and `next_back` calls runs without reaching the desynchronization
fault, and every reached state again has the two cursors paired: both `some`
or both `none`. -/
theorem iter_pairing_invariant {L : List Nat} {ctx : Context} {blk : BasicBlock}
    (hnd : L.Nodup) (henc : EncodesOps ctx L) (hblk : BlockEncodes blk L)
    (calls : List Bool) :
    ∃ ys it2, runCalls ctx (BasicBlock.iter blk) calls = Except.ok (ys, it2) ∧ Paired it2 := by
  obtain ⟨ys, it2, seg2, hrun, habs2⟩ :=
    runCalls_total hnd henc calls L (BasicBlock.iter blk) (iter_fresh_abs hblk)
  refine ⟨ys, it2, hrun, ?_⟩
  obtain ⟨_, hn2, hb2⟩ := habs2
  cases seg2 with
  | nil => exact Or.inl ⟨by rw [hn2]; rfl, by rw [hb2]; rfl⟩
  | cons m ms =>
    refine Or.inr ⟨by rw [hn2]; rfl, ?_⟩
    rw [hb2]
    exact getLast?_isSome_of_ne_nil (by simp)

/-- Witness for claim C9: the three-operation chain under five calls, more
calls than elements. -/
theorem iter_pairing_invariant_witness :
    (exList.Nodup ∧ EncodesOps exCtx exList ∧ BlockEncodes exBlk exList) ∧
    (∃ ys it2, runCalls exCtx (BasicBlock.iter exBlk) [false, true, true, false, true] =
        Except.ok (ys, it2) ∧ Paired it2) :=
  ⟨⟨by decide, by decide, by decide⟩,
   @iter_pairing_invariant exList exCtx exBlk (by decide) (by decide) (by decide)
     [false, true, true, false, true]⟩

theorem lastDefaultAux_abs {L : List Nat} {ctx : Context} (hnd : L.Nodup)
    (henc : EncodesOps ctx L) :
    ∀ (fuel : Nat) (seg : List Nat) (it : Iter) (acc : Option Nat),
      Abs L it seg → seg.length ≤ fuel →
      Iter.lastDefaultAux ctx fuel it acc
        = Except.ok (if seg.isEmpty then acc else seg.getLast?) := by
  intro fuel
  induction fuel with
  | zero =>
    intro seg it acc habs hlen
    have hseg : seg = [] := List.eq_nil_of_length_eq_zero (Nat.le_zero.mp hlen)
    subst hseg
    obtain ⟨_, hn, _⟩ := habs
    have hn0 : it.next = none := by rw [hn]; rfl
    simp [Iter.lastDefaultAux, hn0]
  | succ fuel ih =>
    intro seg it acc habs hlen
    cases seg with
    | nil =>
      obtain ⟨_, hn, _⟩ := habs
      have hn0 : it.next = none := by rw [hn]; rfl
      have hstep : Iter.step ctx it = Except.ok (none, it) := by
        unfold Iter.step
        rw [hn0]
      simp [Iter.lastDefaultAux, hstep]
    | cons a rest =>
      obtain ⟨it2, hstep, habs2⟩ := step_abs hnd henc a rest it habs
      have hred : Iter.lastDefaultAux ctx (fuel + 1) it acc
          = Iter.lastDefaultAux ctx fuel it2 (some a) := by
        simp [Iter.lastDefaultAux, hstep]
      rw [hred, ih rest it2 (some a) habs2 (by simpa using hlen)]
      cases rest with
      | nil => rfl
      | cons b rest2 => simp [List.getLast?_cons_cons]

/-- Claim C10: on every well-formed paired-cursor iterator state, the
overridden `Iterator::last` (a single `next_back` call) agrees with the
default library definition of `last` (exhausting the iterator with `next`
and keeping the final yielded element): both return the element at the back
cursor, and `none` on an exhausted or empty iterator. -/
theorem last_equiv_default {L : List Nat} {ctx : Context} {seg : List Nat} {it : Iter}
    (hnd : L.Nodup) (henc : EncodesOps ctx L) (habs : Abs L it seg)
    (fuel : Nat) (hfuel : seg.length ≤ fuel) :
    Iter.last ctx it = Except.ok it.next_back ∧
    Iter.lastDefault ctx fuel it = Except.ok it.next_back ∧
    Iter.last ctx it = Iter.lastDefault ctx fuel it := by
  obtain ⟨hdc, hn, hb⟩ := habs
  have hlast : Iter.last ctx it = Except.ok seg.getLast? := by
    rcases List.eq_nil_or_concat seg with rfl | ⟨init, z, hz⟩
    · have hb0 : it.next_back = none := by rw [hb]; rfl
      unfold Iter.last Iter.stepBack
      rw [hb0]
      rfl
    · rw [List.concat_eq_append] at hz
      subst hz
      obtain ⟨it2, hstep, _⟩ := stepBack_abs hnd henc init z it ⟨hdc, hn, hb⟩
      unfold Iter.last
      rw [hstep, List.getLast?_concat]
  have hdefault : Iter.lastDefault ctx fuel it = Except.ok seg.getLast? := by
    unfold Iter.lastDefault
    rw [lastDefaultAux_abs hnd henc fuel seg it none ⟨hdc, hn, hb⟩ hfuel]
    cases seg with
    | nil => rfl
    | cons a rest => rfl
  rw [hb]
  exact ⟨hlast, hdefault, by rw [hlast, hdefault]⟩

/-- Witness for claim C10: the fresh iterator over the three-operation
chain, with fuel 5. -/
theorem last_equiv_default_witness :
    (exList.Nodup ∧ EncodesOps exCtx exList ∧ Abs exList (BasicBlock.iter exBlk) exList ∧
      exList.length ≤ 5) ∧
    (Iter.last exCtx (BasicBlock.iter exBlk) = Except.ok (BasicBlock.iter exBlk).next_back ∧
     Iter.lastDefault exCtx 5 (BasicBlock.iter exBlk) =
       Except.ok (BasicBlock.iter exBlk).next_back ∧
     Iter.last exCtx (BasicBlock.iter exBlk) = Iter.lastDefault exCtx 5 (BasicBlock.iter exBlk)) :=
  ⟨⟨by decide, by decide, ⟨⟨[], [], rfl⟩, rfl, rfl⟩, by decide⟩,
   @last_equiv_default exList exCtx exList (BasicBlock.iter exBlk) (by decide) (by decide)
     ⟨⟨[], [], rfl⟩, rfl, rfl⟩ 5 (by decide)⟩

theorem collectAux_abs {L : List Nat} {ctx : Context} (hnd : L.Nodup)
    (henc : EncodesOps ctx L) :
    ∀ (fuel : Nat) (seg : List Nat) (it : Iter), Abs L it seg → seg.length ≤ fuel →
      collectAux ctx fuel it = Except.ok seg := by
  intro fuel
  induction fuel with
  | zero =>
    intro seg it habs hlen
    have hseg : seg = [] := List.eq_nil_of_length_eq_zero (Nat.le_zero.mp hlen)
    subst hseg
    obtain ⟨_, hn, _⟩ := habs
    have hn0 : it.next = none := by rw [hn]; rfl
    simp [collectAux, hn0]
  | succ fuel ih =>
    intro seg it habs hlen
    cases seg with
    | nil =>
      obtain ⟨_, hn, _⟩ := habs
      have hn0 : it.next = none := by rw [hn]; rfl
      have hstep : Iter.step ctx it = Except.ok (none, it) := by
        unfold Iter.step
        rw [hn0]
      simp [collectAux, hstep]
    | cons a rest =>
      obtain ⟨it2, hstep, habs2⟩ := step_abs hnd henc a rest it habs
      simp [collectAux, hstep, ih rest it2 habs2 (by simpa using hlen)]

/-- Claim C5: tearing a block down (its `dealloc_sub_objects` hook followed
by freeing the block's own arena slot) emits exactly one operation
deallocation call per operation linked in the block's op-list, in list
order, and all of them strictly before the event freeing the block's own
slot. -/
theorem dealloc_block_events {L : List Nat} {ctx : Context} {blk : BasicBlock}
    (hnd : L.Nodup) (henc : EncodesOps ctx L) (hblk : BlockEncodes blk L)
    (fuel : Nat) (hfuel : L.length ≤ fuel) :
    deallocBlock ctx blk fuel
      = Except.ok (L.map DeallocEvent.deallocOp ++ [DeallocEvent.freeBlockSlot blk.self_ptr]) ∧
    BasicBlock.dealloc_sub_objects ctx blk fuel = Except.ok (L.map DeallocEvent.deallocOp) := by
  have hc : collectAux ctx fuel (BasicBlock.iter blk) = Except.ok L :=
    collectAux_abs hnd henc fuel L (BasicBlock.iter blk) (iter_fresh_abs hblk) hfuel
  have hsub : BasicBlock.dealloc_sub_objects ctx blk fuel
      = Except.ok (L.map DeallocEvent.deallocOp) := by
    unfold BasicBlock.dealloc_sub_objects
    rw [hc]
  refine ⟨?_, hsub⟩
  unfold deallocBlock
  rw [hsub]

/-- Witness for claim C5: the block holding the three-operation chain. -/
theorem dealloc_block_events_witness :
    (exList.Nodup ∧ EncodesOps exCtx exList ∧ BlockEncodes exBlk exList ∧
      exList.length ≤ 3) ∧
    (deallocBlock exCtx exBlk 3
        = Except.ok (exList.map DeallocEvent.deallocOp ++
            [DeallocEvent.freeBlockSlot exBlk.self_ptr]) ∧
     BasicBlock.dealloc_sub_objects exCtx exBlk 3
        = Except.ok (exList.map DeallocEvent.deallocOp)) :=
  ⟨⟨by decide, by decide, by decide, by decide⟩,
   @dealloc_block_events exList exCtx exBlk (by decide) (by decide) (by decide) 3 (by decide)⟩

theorem verifyAux_abs {L : List Nat} {ctx : Context} (hnd : L.Nodup)
    (henc : EncodesOps ctx L) :
    ∀ (fuel : Nat) (seg : List Nat) (it : Iter), Abs L it seg → seg.length ≤ fuel →
      ((∀ op ∈ seg, ctx.op_verify op = Except.ok ()) ∧
        verifyAux ctx fuel it = Except.ok (seg, Except.ok ())) ∨
      (∃ pre op post err, seg = pre ++ op :: post ∧
        (∀ q ∈ pre, ctx.op_verify q = Except.ok ()) ∧
        ctx.op_verify op = Except.error err ∧
        verifyAux ctx fuel it = Except.ok (pre ++ [op], Except.error err)) := by
  intro fuel
  induction fuel with
  | zero =>
    intro seg it habs hlen
    have hseg : seg = [] := List.eq_nil_of_length_eq_zero (Nat.le_zero.mp hlen)
    subst hseg
    obtain ⟨_, hn, _⟩ := habs
    have hn0 : it.next = none := by rw [hn]; rfl
    left
    exact ⟨by simp, by simp [verifyAux, hn0]⟩
  | succ fuel ih =>
    intro seg it habs hlen
    cases seg with
    | nil =>
      obtain ⟨_, hn, _⟩ := habs
      have hn0 : it.next = none := by rw [hn]; rfl
      have hstep : Iter.step ctx it = Except.ok (none, it) := by
        unfold Iter.step
        rw [hn0]
      left
      exact ⟨by simp, by simp [verifyAux, hstep]⟩
    | cons a rest =>
      obtain ⟨it2, hstep, habs2⟩ := step_abs hnd henc a rest it habs
      cases hva : ctx.op_verify a with
      | error err =>
        right
        exact ⟨[], a, rest, err, rfl, by simp, hva, by simp [verifyAux, hstep, hva]⟩
      | ok u =>
        cases u
        rcases ih rest it2 habs2 (by simpa using hlen) with
          ⟨hall, hrun⟩ | ⟨pre, op, post, err, hdec, hpre, hop, hrun⟩
        · left
          refine ⟨?_, by simp [verifyAux, hstep, hva, hrun]⟩
          intro op hmem
          rcases List.mem_cons.mp hmem with rfl | hmem2
          · exact hva
          · exact hall op hmem2
        · right
          refine ⟨a :: pre, op, post, err, by rw [hdec]; rfl, ?_, hop,
            by simp [verifyAux, hstep, hva, hrun]⟩
          intro q hq
          rcases List.mem_cons.mp hq with rfl | hmem2
          · exact hva
          · exact hpre q hmem2

/-- Claim C6: `BasicBlock::verify` succeeds exactly when every operation in
the block's op-list verifies; otherwise it surfaces the error of the first
operation, in forward list order, whose verification fails, and the
operations after that first failing one are never verified (the list of
operations whose `verify` was invoked stops at the failing one). -/
theorem verify_first_failure {L : List Nat} {ctx : Context} {blk : BasicBlock}
    (hnd : L.Nodup) (henc : EncodesOps ctx L) (hblk : BlockEncodes blk L)
    (fuel : Nat) (hfuel : L.length ≤ fuel) :
    ((∀ op ∈ L, ctx.op_verify op = Except.ok ()) ∧
      BasicBlock.verify ctx blk fuel = Except.ok (L, Except.ok ())) ∨
    (∃ pre op post err, L = pre ++ op :: post ∧
      (∀ q ∈ pre, ctx.op_verify q = Except.ok ()) ∧
      ctx.op_verify op = Except.error err ∧
      BasicBlock.verify ctx blk fuel = Except.ok (pre ++ [op], Except.error err)) :=
  verifyAux_abs hnd henc fuel L (BasicBlock.iter blk) (iter_fresh_abs hblk) hfuel

/-- Witness for claim C6: the three-operation chain in which operation 11
fails verification with error 7. -/
theorem verify_first_failure_witness :
    (exList.Nodup ∧ EncodesOps exCtx exList ∧ BlockEncodes exBlk exList ∧
      exList.length ≤ 3) ∧
    (((∀ op ∈ exList, exCtx.op_verify op = Except.ok ()) ∧
      BasicBlock.verify exCtx exBlk 3 = Except.ok (exList, Except.ok ())) ∨
     (∃ pre op post err, exList = pre ++ op :: post ∧
       (∀ q ∈ pre, exCtx.op_verify q = Except.ok ()) ∧
       exCtx.op_verify op = Except.error err ∧
       BasicBlock.verify exCtx exBlk 3 = Except.ok (pre ++ [op], Except.error err))) :=
  ⟨⟨by decide, by decide, by decide, by decide⟩,
   @verify_first_failure exList exCtx exBlk (by decide) (by decide) (by decide) 3 (by decide)⟩

end Pliron
